import Mathlib

/-!
Verification of the mico agent core against its specification.

The Python source is shallowly embedded: pure functions become Lean
functions, the stateful agent loop becomes explicit state passing, and
fallible operations return `Option`.  Library calls of the Python runtime
(`fnmatch.fnmatch`, `json.loads`, `json.dumps`) are embedded by their
documented semantics: the glob matcher is implemented in full, JSON
parsing is an abstract `String → Option` parameter (the code only ever
branches on success/failure or uses the parsed value opaquely), and
`json.dumps(·, sort_keys=True)` string comparison is modelled as
comparison of key-sorted association lists.
-/

namespace Mico

/-! ## Shell-glob matching (`fnmatch.fnmatch`, used by `permission.py::_match`)

Python's `fnmatch.translate` turns a pattern into a regex: `*` matches any
sequence, `?` any single character, `[...]` a character class (leading `!`
negates, a first `]` is a literal member, `lo-hi` is an inclusive range,
an empty or reversed range matches nothing, an unterminated `[` is a
literal `[`).  We implement the matcher directly over character lists.
The recursion is bounded by an explicit fuel, always instantiated with
more than the combined lengths, so it never runs out; fuel keeps the
definition structurally recursive and hence kernel-evaluable. -/

/-- One member of a glob character class: a literal character or an
inclusive range. -/
inductive ClassItem where
  | single (c : Char)
  | range (lo hi : Char)
deriving DecidableEq

/-- Scan the body of a character class up to the closing `]`.  Returns the
body characters and the remainder of the pattern, or `none` when no `]`
closes the class (fnmatch then treats the opening `[` as a literal). -/
def scanBody : List Char → Option (List Char × List Char)
  | [] => none
  | ']' :: rest => some ([], rest)
  | c :: t =>
    match scanBody t with
    | some (b, r) => some (c :: b, r)
    | none => none

/-- Split a character class that starts right after `[`: handles the
leading `!` negation and a literal `]` first member, as
`fnmatch.translate` does.  Returns (negated, body, rest of pattern). -/
def splitClass (ps : List Char) : Option (Bool × List Char × List Char) :=
  let (neg, ps1) :=
    match ps with
    | '!' :: t => (true, t)
    | _ => (false, ps)
  match ps1 with
  | ']' :: t =>
    match scanBody t with
    | some (b, r) => some (neg, ']' :: b, r)
    | none => none
  | _ =>
    match scanBody ps1 with
    | some (b, r) => some (neg, b, r)
    | none => none

/-- Parse a class body into literal members and ranges.  A `-` that is not
between two characters is a literal member; a reversed range is kept and
simply matches nothing, mirroring translate's removal of empty ranges. -/
def parseItems : List Char → List ClassItem
  | a :: '-' :: b :: rest => ClassItem.range a b :: parseItems rest
  | a :: rest => ClassItem.single a :: parseItems rest
  | [] => []

/-- Membership of a character in a parsed class. -/
def matchClass (c : Char) : List ClassItem → Bool
  | [] => false
  | ClassItem.single x :: rest => c = x || matchClass c rest
  | ClassItem.range lo hi :: rest =>
    (decide (lo.toNat ≤ c.toNat) && decide (c.toNat ≤ hi.toNat)) || matchClass c rest

/-- Core glob matcher: does pattern `ps` match the whole of `vs`?
Structural recursion on fuel; every branch consumes pattern or value, so
fuel `ps.length + vs.length + 1` suffices. -/
def matchChars : Nat → List Char → List Char → Bool
  | 0, _, _ => false
  | _ + 1, [], vs => vs.isEmpty
  | fuel + 1, '*' :: ps, vs =>
    matchChars fuel ps vs ||
      (match vs with
       | [] => false
       | _ :: vs2 => matchChars fuel ('*' :: ps) vs2)
  | fuel + 1, '?' :: ps, vs =>
    (match vs with
     | [] => false
     | _ :: vs2 => matchChars fuel ps vs2)
  | fuel + 1, '[' :: ps, vs =>
    match splitClass ps with
    | some (neg, body, rest) =>
      (match vs with
       | [] => false
       | c :: vs2 => (matchClass c (parseItems body) != neg) && matchChars fuel rest vs2)
    | none =>
      (match vs with
       | '[' :: vs2 => matchChars fuel ps vs2
       | _ => false)
  | fuel + 1, p :: ps, vs =>
    match vs with
    | c :: vs2 => p = c && matchChars fuel ps vs2
    | [] => false

/-- `fnmatch.fnmatch(value, pattern)` on a POSIX system (where
`os.path.normcase` is the identity). -/
def fnmatchStr (value pattern : String) : Bool :=
  matchChars (pattern.data.length + value.data.length + 1) pattern.data value.data

/-! ## Permission engine (`permission.py`) -/

/-- `models.PermissionAction`. -/
inductive PermissionAction where
  | allow
  | deny
  | ask
deriving DecidableEq

/-- `models.PermissionRule`: a permission scope pattern, a target pattern
and the action taken when both match. -/
structure PermissionRule where
  permission : String
  pattern : String
  action : PermissionAction
deriving DecidableEq

/-- `PermissionManager._match`: the wildcard pattern matches any string,
every other pattern uses shell-glob matching. -/
def matchValue (value pattern : String) : Bool :=
  if pattern = "*" then true else fnmatchStr value pattern

/-- Does a rule match a (permission scope, target pattern) request? -/
def ruleMatches (r : PermissionRule) (permission pattern : String) : Bool :=
  matchValue permission r.permission && matchValue pattern r.pattern

/-- First matching rule of a rule list (the `for rule in reversed(...)`
scan is this function applied to the reversed list). -/
def findMatch (permission pattern : String) : List PermissionRule → Option PermissionRule
  | [] => none
  | r :: rest =>
    if ruleMatches r permission pattern then some r
    else findMatch permission pattern rest

/-- `PermissionManager.evaluate`: concatenate configured rules and
runtime-approved rules, scan from the end toward the start, return the
first match's action, defaulting to ask. -/
def evaluate (rules approved : List PermissionRule) (permission pattern : String) :
    PermissionAction :=
  match findMatch permission pattern ((rules ++ approved).reverse) with
  | some r => r.action
  | none => PermissionAction.ask

/-- The mutable state of a `PermissionManager`: configured rules and the
runtime-approved rules appended during the session. -/
structure PermState where
  rules : List PermissionRule
  approved : List PermissionRule
deriving DecidableEq

/-- The state change performed by `_default_ask` when the user answers
"always": an allow rule for that exact (permission, pattern) pair is
appended to the runtime-approved list. -/
def markAlways (st : PermState) (permission pattern : String) : PermState :=
  { st with
    approved := st.approved ++ [⟨permission, pattern, PermissionAction.allow⟩] }

/-- A user's reply to the interactive permission prompt in `_default_ask`. -/
inductive AskResponse where
  | yes
  | no
  | always
deriving DecidableEq

/-- `PermissionManager._default_ask`, with the interactive prompt replaced
by an oracle giving the user's answer: returns whether the action is
allowed and the updated manager state. -/
def defaultAsk (answer : String → String → AskResponse) (st : PermState)
    (permission pattern : String) : Bool × PermState :=
  match answer permission pattern with
  | AskResponse.always => (true, markAlways st permission pattern)
  | AskResponse.yes => (true, st)
  | AskResponse.no => (false, st)

/-- Outcome of `PermissionManager.check`: success, or the raised
`PermissionDeniedError` / `PermissionRejectedError` with the offending
(permission, pattern) pair. -/
inductive CheckOutcome where
  | ok
  | denied (permission pattern : String)
  | rejected (permission pattern : String)
deriving DecidableEq

/-- `PermissionManager.check`: evaluate each target pattern in turn; deny
raises immediately, ask invokes the callback (which may mutate the state,
e.g. on an "always" answer) and raises when the user does not allow.
The callback is abstract (`ask_callback` is injectable in the source).
Also returns the final state and how many times the callback ran. -/
def check (cb : String → String → PermState → Bool × PermState) (permission : String) :
    List String → PermState → CheckOutcome × PermState × Nat
  | [], st => (CheckOutcome.ok, st, 0)
  | p :: rest, st =>
    match evaluate st.rules st.approved permission p with
    | PermissionAction.deny => (CheckOutcome.denied permission p, st, 0)
    | PermissionAction.ask =>
      let (allowed, st2) := cb permission p st
      if allowed then
        let (o, st3, n) := check cb permission rest st2
        (o, st3, n + 1)
      else
        (CheckOutcome.rejected permission p, st2, 1)
    | PermissionAction.allow => check cb permission rest st

/-! ## JSON values and canonical serialization

Tool-call arguments are Python dicts produced by `json.loads`.  We model a
JSON scalar value directly and an argument mapping as an association list
in insertion order (Python dicts preserve insertion order).  The doom-loop
detector compares `json.dumps(input, sort_keys=True)` strings; two such
strings are equal exactly when the key-sorted association lists are equal,
which is what `canonInput` computes.  (Nested containers, whose inner key
order `json.dumps` also canonicalizes, are not needed by any property
proved here, so values are modelled as scalars.) -/

/-- A JSON scalar value. -/
inductive JVal where
  | jnull
  | jbool (b : Bool)
  | jnum (n : Int)
  | jstr (s : String)
deriving DecidableEq

/-- An argument mapping in insertion order. -/
abbrev ArgMap := List (String × JVal)

/-- Lexicographic order on strings by code point, the order `sort_keys`
uses; written over character lists so that it kernel-evaluates. -/
def lexLe : List Char → List Char → Bool
  | [], _ => true
  | _ :: _, [] => false
  | a :: as, b :: bs => if a = b then lexLe as bs else decide (a.toNat < b.toNat)

/-- Key order on mapping entries. -/
def keyRel (a b : String × JVal) : Prop :=
  lexLe a.1.data b.1.data = true

/-- Strict key order on mapping entries (used to show canonical forms are
unique on duplicate-free key sets). -/
def keyStrict (a b : String × JVal) : Prop :=
  keyRel a b ∧ a.1 ≠ b.1

instance keyRelDecidable : DecidableRel keyRel :=
  fun a b => inferInstanceAs (Decidable (lexLe a.1.data b.1.data = true))

instance keyRelTotal : IsTotal (String × JVal) keyRel :=
  ⟨by
    intro a b
    show lexLe a.1.data b.1.data = true ∨ lexLe b.1.data a.1.data = true
    generalize a.1.data = x
    generalize b.1.data = y
    induction x generalizing y with
    | nil => left; rfl
    | cons c cs ih =>
      cases y with
      | nil => right; rfl
      | cons d ds =>
        by_cases hcd : c = d
        · subst hcd
          rcases ih ds with h | h
          · left; simpa [lexLe] using h
          · right; simpa [lexLe] using h
        · have hnn : c.toNat ≠ d.toNat := fun hh =>
            hcd (Char.eq_of_val_eq (UInt32.eq_of_toBitVec_eq (BitVec.eq_of_toNat_eq hh)))
          rcases Nat.lt_or_ge c.toNat d.toNat with h | h
          · left; simp [lexLe, hcd, h]
          · have h2 : d.toNat < c.toNat := lt_of_le_of_ne h (Ne.symm hnn)
            right; simp [lexLe, Ne.symm hcd, h2]⟩

instance keyRelTrans : IsTrans (String × JVal) keyRel :=
  ⟨by
    intro a b c hab hbc
    show lexLe a.1.data c.1.data = true
    have key : ∀ (x y z : List Char),
        lexLe x y = true → lexLe y z = true → lexLe x z = true := by
      intro x
      induction x with
      | nil => intro y z _ _; rfl
      | cons p ps ih =>
        intro y z hxy hyz
        cases y with
        | nil => simp [lexLe] at hxy
        | cons q qs =>
          cases z with
          | nil => simp [lexLe] at hyz
          | cons r rs =>
            by_cases h1 : p = q
            · subst h1
              by_cases h2 : p = r
              · subst h2
                simp only [lexLe, if_pos rfl] at hxy hyz ⊢
                exact ih qs rs hxy hyz
              · simp only [lexLe, if_pos rfl] at hxy
                simp only [lexLe, if_neg h2] at hyz ⊢
                exact hyz
            · by_cases h2 : q = r
              · subst h2
                simp only [lexLe, if_neg h1] at hxy ⊢
                exact hxy
              · simp only [lexLe, if_neg h1, decide_eq_true_eq] at hxy
                simp only [lexLe, if_neg h2, decide_eq_true_eq] at hyz
                have h3 : p.toNat < r.toNat := Nat.lt_trans hxy hyz
                have h4 : p ≠ r := fun e => by
                  subst e; exact Nat.lt_irrefl _ h3
                simp [lexLe, h4, h3]
    exact key _ _ _ hab hbc⟩

instance keyStrictAntisymm : IsAntisymm (String × JVal) keyStrict :=
  ⟨by
    intro a b h1 h2
    exfalso
    apply h1.2
    have key : ∀ (x y : List Char),
        lexLe x y = true → lexLe y x = true → x = y := by
      intro x
      induction x with
      | nil =>
        intro y _ hy
        cases y with
        | nil => rfl
        | cons d ds => simp [lexLe] at hy
      | cons c cs ih =>
        intro y hxy hyx
        cases y with
        | nil => simp [lexLe] at hxy
        | cons d ds =>
          by_cases hcd : c = d
          · subst hcd
            simp only [lexLe, if_pos rfl] at hxy hyx
            rw [ih ds hxy hyx]
          · simp only [lexLe, if_neg hcd, decide_eq_true_eq] at hxy
            simp only [lexLe, if_neg (Ne.symm hcd), decide_eq_true_eq] at hyx
            exact absurd (Nat.lt_trans hxy hyx) (Nat.lt_irrefl _)
    obtain ⟨sa, va⟩ := a
    obtain ⟨sb, vb⟩ := b
    obtain ⟨da⟩ := sa
    obtain ⟨db⟩ := sb
    have := key da db h1.1 h2.1
    simp_all⟩

/-- Canonicalize an argument mapping the way
`json.dumps(·, sort_keys=True)` does: sort the entries by key. -/
def canonInput (input : ArgMap) : ArgMap :=
  List.insertionSort keyRel input

/-- The (tool name, canonicalized arguments) pair the doom-loop detector
builds for one tool call (`(tool_name, json.dumps(input, sort_keys=True))`
in the source). -/
def doomPair (toolName : String) (input : ArgMap) : String × ArgMap :=
  (toolName, canonInput input)

/-! ## Message data model (`models.py`), as the doom-loop detector reads it -/

/-- A message part: `TextPart`, `ToolPart` (carrying the tool call's name
and input) or `ReasoningPart`. -/
inductive MessagePart where
  | textPart (text : String)
  | toolPart (toolName : String) (input : ArgMap)
  | reasoningPart (text : String)
deriving DecidableEq

/-- A session message as the detector sees it: its role and ordered parts. -/
structure MsgRec where
  role : String
  parts : List MessagePart
deriving DecidableEq

/-- `AgentLoop._detect_doom_loop`, inner loop: walk the parts of one
message in stored order, appending the doom pair of every tool part and
stopping as soon as the accumulator reaches the threshold of 3. -/
def collectParts : List MessagePart → List (String × ArgMap) → List (String × ArgMap)
  | [], acc => acc
  | p :: rest, acc =>
    match p with
    | MessagePart.toolPart n i =>
      let acc2 := acc ++ [doomPair n i]
      if 3 ≤ acc2.length then acc2 else collectParts rest acc2
    | _ => collectParts rest acc

/-- `AgentLoop._detect_doom_loop`, outer loop: walk the messages newest to
oldest, skipping non-assistant messages, stopping once 3 pairs are
collected. -/
def collectMsgs : List MsgRec → List (String × ArgMap) → List (String × ArgMap)
  | [], acc => acc
  | m :: rest, acc =>
    if m.role = "assistant" then
      let acc2 := collectParts m.parts acc
      if 3 ≤ acc2.length then acc2 else collectMsgs rest acc2
    else collectMsgs rest acc

/-- Lines 716-720 of `loop.py`: below the threshold report false,
otherwise report whether every collected pair equals the first. -/
def doomDecision (recent : List (String × ArgMap)) : Bool :=
  if recent.length < 3 then false
  else
    match recent with
    | [] => false
    | f :: _ => recent.all (fun c => c = f)

/-- `AgentLoop._detect_doom_loop`: collect the pairs as above over the
reversed message list and decide. -/
def detectDoomLoop (msgs : List MsgRec) : Bool :=
  doomDecision (collectMsgs msgs.reverse [])

/-- The doom pairs of one message's parts, in stored order. -/
def partPairs : List MessagePart → List (String × ArgMap)
  | [] => []
  | MessagePart.toolPart n i :: rest => doomPair n i :: partPairs rest
  | _ :: rest => partPairs rest

/-- All doom pairs of a session's assistant messages in chronological
order. -/
def sessionPairs (msgs : List MsgRec) : List (String × ArgMap) :=
  (msgs.filter fun m => m.role = "assistant").flatMap fun m => partPairs m.parts

/-- Modelled from the claim's words, for comparison with the source's
`detectDoomLoop`: take the last 3 tool-call pairs of the session, in
reverse chronological order, and apply the same decision. -/
def claimDoomLoop (msgs : List MsgRec) : Bool :=
  doomDecision (((sessionPairs msgs).reverse).take 3)

/-! ## Streaming response assembly (`AgentLoop._process_stream`)

The loop consumes provider `StreamChunk`s, appending text, registering
tool calls and accumulating their argument fragments, then at the end of
the stream parses each accumulated argument string.  `json.loads` is an
abstract parameter `parse`: the loop only branches on its success. -/

/-- The provider chunks the loop dispatches on (`StreamChunk.type`). -/
inductive LoopChunk where
  | text (content : String)
  | toolCall (id name : String)
  | toolCallDelta (id : String) (argsDelta : Option String)
  | finish (reason : String)
  | errorChunk (msg : String)
deriving DecidableEq

/-- Assembly state: text buffer, registered tool calls in insertion
order — (id, tool name, accumulated argument string, `none` before the
first delta, mirroring the lazily created `_args_str`) — and the finish
reason (initialized to "stop"). -/
structure StreamAcc where
  currentText : String
  calls : List (String × String × Option String)
  finishReason : String
deriving DecidableEq

/-- The initial assembly state of `_process_stream`. -/
def initAcc : StreamAcc := ⟨"", [], "stop"⟩

/-- Process one chunk.  A `tool_call` registers a fresh `ToolCall` under
its id (a Python dict assignment: an existing entry is replaced in place,
a new one appended).  A `tool_call_delta` appends its fragment to the
matching call's argument string and is dropped when the id is unknown.
An `error` chunk is display-only. -/
def stepChunk (acc : StreamAcc) : LoopChunk → StreamAcc
  | LoopChunk.text s => { acc with currentText := acc.currentText ++ s }
  | LoopChunk.toolCall id name =>
    if acc.calls.any (fun e => e.1 = id) then
      { acc with
        calls := acc.calls.map fun e => if e.1 = id then (id, name, none) else e }
    else
      { acc with calls := acc.calls ++ [(id, name, none)] }
  | LoopChunk.toolCallDelta id d =>
    { acc with
      calls := acc.calls.map fun e =>
        if e.1 = id then (e.1, e.2.1, some ((e.2.2.getD "") ++ d.getD "")) else e }
  | LoopChunk.finish reason => { acc with finishReason := reason }
  | LoopChunk.errorChunk _ => acc

/-- Fold a whole chunk stream into the assembly state. -/
def processChunks (chunks : List LoopChunk) : StreamAcc :=
  chunks.foldl stepChunk initAcc

/-- Finish-time argument parsing for one call: no delta ever arrived means
the input stays the empty record; otherwise `json.loads` the accumulated
string, falling back to the raw-string record on parse failure. -/
def finalizeInput (parse : String → Option ArgMap) : Option String → ArgMap
  | none => []
  | some s =>
    match parse s with
    | some m => m
    | none => [("raw", JVal.jstr s)]

/-- A fully assembled tool call. -/
structure FinalCall where
  id : String
  name : String
  input : ArgMap
deriving DecidableEq

/-- Finalize every registered call. -/
def finalizeCalls (parse : String → Option ArgMap) (acc : StreamAcc) : List FinalCall :=
  acc.calls.map fun e => ⟨e.1, e.2.1, finalizeInput parse e.2.2⟩

/-- Result of the tail of `_process_stream`: the tool-call parts added to
the assistant message, the calls handed to `_execute_tools`, and the
resulting finish reason (a "stop" is promoted to "tool_calls" when tool
calls are present). -/
structure AssembledStep where
  finalCalls : List FinalCall
  executedCalls : List FinalCall
  finishReason : String
deriving DecidableEq

/-- Lines 336-356 of `loop.py`: parse arguments, add the parts, execute
the tools, fix up the finish reason. -/
def assembleStep (parse : String → Option ArgMap) (acc : StreamAcc) : AssembledStep :=
  if acc.calls.isEmpty then ⟨[], [], acc.finishReason⟩
  else
    let fc := finalizeCalls parse acc
    ⟨fc, fc, if acc.finishReason = "stop" then "tool_calls" else acc.finishReason⟩

/-- The argument fragments a chunk stream addresses to a given call id, in
order (a missing fragment payload counts as the empty string, as
`chunk.tool_args_delta or ""` does). -/
def fragsTo (id : String) : List LoopChunk → List String
  | [] => []
  | LoopChunk.toolCallDelta i d :: rest =>
    if i = id then d.getD "" :: fragsTo id rest else fragsTo id rest
  | _ :: rest => fragsTo id rest

/-- Does a chunk stream register (or re-register) the given call id? -/
def reRegisters (id : String) : List LoopChunk → Bool
  | [] => false
  | LoopChunk.toolCall i _ :: rest => i = id || reRegisters id rest
  | _ :: rest => reRegisters id rest

/-- Concatenation of a fragment list (`"".join`-style, via `foldl` like
the source's repeated `+=`). -/
def concatFrags (l : List String) : String :=
  l.foldl (fun a b => a ++ b) ""

/-- The update a `tool_call_delta` fragment applies to its call entry. -/
def applyFrag (e : String × String × Option String) (f : String) :
    String × String × Option String :=
  (e.1, e.2.1, some (e.2.2.getD "" ++ f))

/-! ## Tool execution (`AgentLoop._execute_tools`)

Tools execute strictly sequentially.  The registry is the set of known
tool names; each call's execution outcome (permission result included —
the pre-check and the tool body raise the same two permission errors) is
supplied by the environment.  A permission error records the failure on
the call and re-raises, ending the step; an unknown tool or a generic
exception records the failure and continues with the next call. -/

/-- Outcome of attempting one registered tool call. -/
inductive ExecOutcome where
  | permDenied (msg : String)
  | permRejected (msg : String)
  | failed (msg : String)
  | succeeded (output : String)
deriving DecidableEq

/-- One requested tool call with its environment-determined outcome. -/
structure CallSpec where
  id : String
  name : String
  exec : ExecOutcome
deriving DecidableEq

/-- `models.ToolState`. -/
inductive ToolState where
  | pending
  | running
  | completed
  | error
deriving DecidableEq

/-- The final record `update_tool_part` leaves on one tool call. -/
structure ToolRecord where
  id : String
  state : ToolState
  output : Option String
  error : Option String
deriving DecidableEq

/-- The permission exception that aborts `_execute_tools`. -/
inductive PermExn where
  | denied (msg : String)
  | rejected (msg : String)
deriving DecidableEq

/-- `AgentLoop._execute_tools`: returns the records of the calls actually
processed and the permission exception that escaped, if any.  Calls after
a permission error are never reached. -/
def executeTools (registry : List String) : List CallSpec → List ToolRecord × Option PermExn
  | [] => ([], none)
  | c :: rest =>
    if registry.contains c.name then
      match c.exec with
      | ExecOutcome.permDenied m =>
        ([⟨c.id, ToolState.error, none, some m⟩], some (PermExn.denied m))
      | ExecOutcome.permRejected m =>
        ([⟨c.id, ToolState.error, none, some m⟩], some (PermExn.rejected m))
      | ExecOutcome.failed m =>
        (⟨c.id, ToolState.error, none, some m⟩ :: (executeTools registry rest).1,
          (executeTools registry rest).2)
      | ExecOutcome.succeeded out =>
        (⟨c.id, ToolState.completed, some out, none⟩ :: (executeTools registry rest).1,
          (executeTools registry rest).2)
    else
      (⟨c.id, ToolState.error, none, some ("Unknown tool: " ++ c.name)⟩ ::
          (executeTools registry rest).1,
        (executeTools registry rest).2)

/-! ## The turn loop (`AgentLoop.run`)

One turn is a `while step < max_steps` loop.  Each iteration asks
`_process_stream` for a finish reason — or an exception — and, when tool
calls were requested, runs the doom-loop escalation.  The environment's
behaviour at each step (stream outcome, doom-detection result, outcome of
the doom `permission.check`) is supplied as a function of the step index;
the loop itself is embedded faithfully below. -/

/-- How `_process_stream` ends, as observed by `run`: a returned finish
reason or one of the exceptions `run` handles. -/
inductive StreamOutcome where
  | finished (reason : String)
  | cancelled
  | permissionDenied (msg : String)
  | permissionRejected (msg : String)
  | excOther (msg : String)
deriving DecidableEq

/-- Outcome of `permission.check("doom_loop", ["*"])`: allowed, rejected
by the user (`PermissionRejectedError`, caught in `run`'s inner `try`), or
denied by policy (`PermissionDeniedError`, which escapes to the outer
handler). -/
inductive DoomCheckOutcome where
  | allowed
  | rejected
  | denied (msg : String)
deriving DecidableEq

/-- The environment's behaviour at one step of the turn loop. -/
structure StepBehavior where
  stream : StreamOutcome
  doomDetected : Bool
  doomCheck : DoomCheckOutcome
deriving DecidableEq

/-- The fields of the returned `AssistantMessage` that the loop decides:
its finish reason and error. -/
structure MsgResult where
  finishReason : String
  error : Option String
deriving DecidableEq

/-- The body of `run`'s `while` loop.  `fuel` is the number of remaining
iterations (`max_steps - step`); `last` is the assistant message produced
by the previous iteration, if any, which is what `run` returns when the
step budget is exhausted. -/
def runAux (b : Nat → StepBehavior) (step : Nat) (last : Option MsgResult) :
    Nat → Option MsgResult
  | 0 => last
  | fuel + 1 =>
    let sb := b step
    match sb.stream with
    | StreamOutcome.finished r =>
      if r ≠ "tool_calls" then some ⟨r, none⟩
      else if sb.doomDetected then
        match sb.doomCheck with
        | DoomCheckOutcome.allowed =>
          runAux b (step + 1) (some ⟨"tool_calls", none⟩) fuel
        | DoomCheckOutcome.rejected => some ⟨"stopped", none⟩
        | DoomCheckOutcome.denied m => some ⟨"error", some m⟩
      else runAux b (step + 1) (some ⟨"tool_calls", none⟩) fuel
    | StreamOutcome.cancelled => some ⟨"interrupted", none⟩
    | StreamOutcome.permissionDenied m => some ⟨"error", some m⟩
    | StreamOutcome.permissionRejected _ => some ⟨"stopped", none⟩
    | StreamOutcome.excOther m => some ⟨"error", some m⟩

/-- `AgentLoop.run` after the user message is appended: iterate up to
`maxSteps` steps and return the final assistant message's result (`none`
when `max_steps = 0` and no assistant message was ever created). -/
def runLoop (b : Nat → StepBehavior) (maxSteps : Nat) : Option MsgResult :=
  runAux b 0 none maxSteps

/-- How the permission exception escaping `_execute_tools` is seen by
`run`: it propagates unchanged through `_process_stream`, whose only
handler is for cancellation. -/
def outcomeOfExec : Option PermExn → String → StreamOutcome
  | some (PermExn.denied m), _ => StreamOutcome.permissionDenied m
  | some (PermExn.rejected m), _ => StreamOutcome.permissionRejected m
  | none, reason => StreamOutcome.finished reason

/-! ## Retry/backoff governor (`llm/openai.py::OpenAIProvider.stream`)

The provider call is a `for attempt in range(max_retries + 1)` loop.  Time
is made explicit: each upstream chunk carries the interval since the
previous one, and the realized backoff sleeps are returned alongside the
emitted chunks.  Retry-notice error chunks (which the source renders as
formatted text) are modelled structurally, carrying the attempt index and
the delay they announce. -/

/-- `llm/base.py::LLMConfig`.  Delays are rationals (the source's floats
are exact on these values). -/
structure LLMConfig where
  timeout : ℚ := 120
  connect_timeout : ℚ := 30
  max_retries : Nat := 3
  retry_delay : ℚ := 1
deriving DecidableEq

/-- `llm/base.py::DEFAULT_LLM_CONFIG`. -/
def DEFAULT_LLM_CONFIG : LLMConfig := {}

/-- Substring test (Python's `in` on strings), over character lists so it
kernel-evaluates. -/
def charsContain (hay needle : List Char) : Bool :=
  match hay with
  | [] => needle.isEmpty
  | _ :: t => needle.isPrefixOf hay || charsContain t needle

/-- Python `needle in hay` for strings. -/
def strContains (hay needle : String) : Bool :=
  charsContain hay.data needle.data

/-- ASCII lowercasing of one character (`str.lower` on the error text; the
retry keywords are all ASCII). -/
def lowerChar (c : Char) : Char :=
  if 'A'.toNat ≤ c.toNat ∧ c.toNat ≤ 'Z'.toNat then Char.ofNat (c.toNat + 32) else c

/-- Lowercased copy of a string. -/
def lowerStr (s : String) : String :=
  ⟨s.data.map lowerChar⟩

/-- The retryability classification of a failure: the lowercased error
text is scanned for the keyword list of `openai.py` line 161. -/
def isRetryableError (err : String) : Bool :=
  ["timeout", "connection", "network", "rate", "429",
   "500", "502", "503", "504", "overloaded"].any
    (fun k => strContains (lowerStr err) k)

/-- The rate-limit test of `openai.py` line 170: "rate" in the lowercased
text or "429" in the original text. -/
def isRateLimited (err : String) : Bool :=
  strContains (lowerStr err) "rate" || strContains err "429"

/-- The realized backoff delay for a retryable failure at a given attempt
(`openai.py` lines 167-171): exponential with base 2 from `retry_delay`,
floored at 10 seconds when the failure signals a rate limit. -/
def retryDelay (cfg : LLMConfig) (attempt : Nat) (err : String) : ℚ :=
  let delay := cfg.retry_delay * 2 ^ attempt
  if isRateLimited err then max delay 10 else delay

/-- One upstream chunk: the time since the previous chunk arrived, the
text delta, and the finish reason, if present. -/
structure UpEvent where
  gap : ℚ
  content : Option String
  finishReason : Option String
deriving DecidableEq

/-- What one attempt of the provider call runs into: a connect timeout
(`asyncio.TimeoutError`), an exception with the given text, or an upstream
stream of chunks. -/
inductive AttemptResult where
  | connectTimeout
  | excn (msg : String)
  | ok (events : List UpEvent)
deriving DecidableEq

/-- The chunks the provider yields downstream (tool-call passthrough
chunks carry no timing or retry behaviour and are omitted; the text of the
retry-notice error chunk is modelled structurally). -/
inductive ProvChunk where
  | text (content : String)
  | errorChunk (msg : String)
  | retryNotice (attempt : Nat) (delay : ℚ)
  | finish (reason : String)
  | exhausted (lastError : String)
deriving DecidableEq

/-- How the `async for chunk in stream` body ends. -/
inductive EventsOutcome where
  | finished
  | idleTimeout
  | ranOut
deriving DecidableEq

/-- The `async for` body of `OpenAIProvider.stream`: before each chunk is
processed the idle check fires when more than 60 seconds passed since the
previous chunk — the provider then yields an idle-timeout error chunk and
returns.  Otherwise text is forwarded and a finish reason ends the
attempt successfully.  A stream that ends without a finish reason falls
back to the retry loop. -/
def procEvents : List UpEvent → List ProvChunk × EventsOutcome
  | [] => ([], EventsOutcome.ranOut)
  | e :: rest =>
    if e.gap > 60 then
      ([ProvChunk.errorChunk "流式响应超时 - 60秒未收到数据"], EventsOutcome.idleTimeout)
    else
      let txt :=
        match e.content with
        | some s => [ProvChunk.text s]
        | none => []
      match e.finishReason with
      | some r => (txt ++ [ProvChunk.finish r], EventsOutcome.finished)
      | none =>
        (txt ++ (procEvents rest).1, (procEvents rest).2)

/-- The retry loop of `OpenAIProvider.stream`.  `fuel` is the number of
remaining loop iterations (`max_retries + 1 - attempt`); `lastError` is
the `last_error` variable.  Returns the yielded chunks and the list of
realized `asyncio.sleep` delays. -/
def streamGo (cfg : LLMConfig) (results : Nat → AttemptResult) (attempt : Nat)
    (lastError : String) : Nat → List ProvChunk × List ℚ
  | 0 => ([ProvChunk.exhausted lastError, ProvChunk.finish "error"], [])
  | fuel + 1 =>
    match results attempt with
    | AttemptResult.connectTimeout =>
      if attempt < cfg.max_retries then
        (ProvChunk.retryNotice attempt (cfg.retry_delay * 2 ^ attempt) ::
            (streamGo cfg results (attempt + 1) "连接超时" fuel).1,
          cfg.retry_delay * 2 ^ attempt :: (streamGo cfg results (attempt + 1) "连接超时" fuel).2)
      else streamGo cfg results (attempt + 1) "连接超时" fuel
    | AttemptResult.excn msg =>
      if isRetryableError msg && decide (attempt < cfg.max_retries) then
        (ProvChunk.retryNotice attempt (retryDelay cfg attempt msg) ::
            (streamGo cfg results (attempt + 1) msg fuel).1,
          retryDelay cfg attempt msg :: (streamGo cfg results (attempt + 1) msg fuel).2)
      else ([ProvChunk.errorChunk msg, ProvChunk.finish "error"], [])
    | AttemptResult.ok events =>
      match procEvents events with
      | (cs, EventsOutcome.finished) => (cs, [])
      | (cs, EventsOutcome.idleTimeout) => (cs, [])
      | (cs, EventsOutcome.ranOut) =>
        (cs ++ (streamGo cfg results (attempt + 1) lastError fuel).1,
          (streamGo cfg results (attempt + 1) lastError fuel).2)

/-- `OpenAIProvider.stream` as a whole: run the retry loop from attempt 0
with its full budget of `max_retries + 1` iterations. -/
def streamRun (cfg : LLMConfig) (results : Nat → AttemptResult) :
    List ProvChunk × List ℚ :=
  streamGo cfg results 0 "" (cfg.max_retries + 1)

/-- `permission.py::DEFAULT_RULES`. -/
def DEFAULT_RULES : List PermissionRule :=
  [⟨"*", "*", PermissionAction.allow⟩,
   ⟨"bash", "rm *", PermissionAction.ask⟩,
   ⟨"bash", "sudo *", PermissionAction.ask⟩,
   ⟨"edit", "*.env", PermissionAction.ask⟩,
   ⟨"edit", "*.env.*", PermissionAction.ask⟩,
   ⟨"doom_loop", "*", PermissionAction.ask⟩]

/-! ## Theorems -/

theorem findMatch_eq_none_of_all (permission pattern : String) :
    ∀ l : List PermissionRule, (∀ x ∈ l, ruleMatches x permission pattern = false) →
      findMatch permission pattern l = none := by
  intro l
  induction l with
  | nil => intro _; rfl
  | cons a t ih =>
    intro h
    have ha : ruleMatches a permission pattern = false := h a (List.mem_cons_self a t)
    simp only [findMatch, ha]
    exact ih fun x hx => h x (List.mem_cons_of_mem a hx)

theorem findMatch_append_of_none (permission pattern : String)
    (l₁ l₂ : List PermissionRule)
    (h : ∀ x ∈ l₁, ruleMatches x permission pattern = false) :
    findMatch permission pattern (l₁ ++ l₂) = findMatch permission pattern l₂ := by
  induction l₁ with
  | nil => rfl
  | cons a t ih =>
    have ha : ruleMatches a permission pattern = false := h a (List.mem_cons_self a t)
    simp only [List.cons_append, findMatch, ha]
    exact ih fun x hx => h x (List.mem_cons_of_mem a hx)

/-- C1: permission evaluation is last-match-wins with a default of ask:
the wildcard pattern matches any string; for any decomposition of
configured rules followed by runtime-approved rules in which a rule
matches both the scope and the target and no later rule matches, evaluate
returns that rule's action; and when no rule matches, evaluate returns
ask. -/
theorem c1_evaluate_last_match_wins :
    (∀ v, matchValue v "*" = true) ∧
    (∀ (rules approved l₁ l₂ : List PermissionRule) (r : PermissionRule)
        (permission pattern : String),
        rules ++ approved = l₁ ++ r :: l₂ →
        ruleMatches r permission pattern = true →
        (∀ x ∈ l₂, ruleMatches x permission pattern = false) →
        evaluate rules approved permission pattern = r.action) ∧
    (∀ (rules approved : List PermissionRule) (permission pattern : String),
        (∀ x ∈ rules ++ approved, ruleMatches x permission pattern = false) →
        evaluate rules approved permission pattern = PermissionAction.ask) := by
  refine ⟨fun v => by simp [matchValue], ?_, ?_⟩
  · intro rules approved l₁ l₂ r permission pattern hsplit hr hl₂
    have hrev : (rules ++ approved).reverse = l₂.reverse ++ r :: l₁.reverse := by
      rw [hsplit]
      simp [List.reverse_append]
    unfold evaluate
    rw [hrev, findMatch_append_of_none _ _ _ _ fun x hx => hl₂ x (List.mem_reverse.mp hx)]
    simp [findMatch, hr]
  · intro rules approved permission pattern hall
    unfold evaluate
    rw [findMatch_eq_none_of_all _ _ _ fun x hx => hall x (List.mem_reverse.mp hx)]

/-- Witness for C1: with configured rules [allow-everything, ask-on-rm]
and a runtime-approved deny rule, all three match and the last one (the
runtime-approved deny) wins. -/
theorem c1_witness :
    evaluate
      [⟨"*", "*", PermissionAction.allow⟩, ⟨"bash", "rm *", PermissionAction.ask⟩]
      [⟨"bash", "rm -rf tmp", PermissionAction.deny⟩] "bash" "rm -rf tmp" =
      PermissionAction.deny :=
  c1_evaluate_last_match_wins.2.1
    [⟨"*", "*", PermissionAction.allow⟩, ⟨"bash", "rm *", PermissionAction.ask⟩]
    [⟨"bash", "rm -rf tmp", PermissionAction.deny⟩]
    [⟨"*", "*", PermissionAction.allow⟩, ⟨"bash", "rm *", PermissionAction.ask⟩]
    [] ⟨"bash", "rm -rf tmp", PermissionAction.deny⟩ "bash" "rm -rf tmp"
    (by decide) (by decide) (by simp)

/-- C5 (amended): marking a pair "always" appends an allow rule for that
exact pair, and a subsequent evaluate returns allow — and a subsequent
check runs the callback zero times — provided the scope and the target
pattern each glob-match themselves (which holds for every pattern free of
glob metacharacters, and for the wildcard). -/
theorem c5_always_then_allow
    (st : PermState) (cb : String → String → PermState → Bool × PermState)
    (permission pattern : String)
    (h1 : matchValue permission permission = true)
    (h2 : matchValue pattern pattern = true) :
    evaluate (markAlways st permission pattern).rules
        (markAlways st permission pattern).approved permission pattern =
      PermissionAction.allow ∧
    check cb permission [pattern] (markAlways st permission pattern) =
      (CheckOutcome.ok, markAlways st permission pattern, 0) := by
  obtain ⟨rs, aps⟩ := st
  have hev : evaluate rs (aps ++ [⟨permission, pattern, PermissionAction.allow⟩])
      permission pattern = PermissionAction.allow := by
    unfold evaluate
    rw [← List.append_assoc, List.reverse_append]
    simp [findMatch, ruleMatches, h1, h2]
  exact ⟨hev, by simp [check, markAlways, hev]⟩

/-- Witness for C5: a metacharacter-free pair, marked always, evaluates to
allow and a later check never reaches the callback. -/
theorem c5_witness :
    evaluate (markAlways ⟨[], []⟩ "bash" "ls -la").rules
        (markAlways ⟨[], []⟩ "bash" "ls -la").approved "bash" "ls -la" =
      PermissionAction.allow ∧
    check (fun _ _ s => (false, s)) "bash" ["ls -la"] (markAlways ⟨[], []⟩ "bash" "ls -la") =
      (CheckOutcome.ok, markAlways ⟨[], []⟩ "bash" "ls -la", 0) :=
  c5_always_then_allow ⟨[], []⟩ (fun _ _ s => (false, s)) "bash" "ls -la"
    (by decide) (by decide)

/-- C5 counterexample: the pattern "[a]" does not glob-match itself, so
after marking ("bash", "[a]") always the appended allow rule fails to
match the identical request: evaluate still answers ask, and a subsequent
check invokes the interactive callback again (once). -/
theorem c5_counterexample :
    evaluate (markAlways ⟨[], []⟩ "bash" "[a]").rules
        (markAlways ⟨[], []⟩ "bash" "[a]").approved "bash" "[a]" =
      PermissionAction.ask ∧
    PermissionAction.ask ≠ PermissionAction.allow ∧
    (check (fun _ _ s => (false, s)) "bash" ["[a]"] (markAlways ⟨[], []⟩ "bash" "[a]")).2.2 = 1 := by
  decide

theorem collectParts_take (parts : List MessagePart) (acc : List (String × ArgMap))
    (h : acc.length < 3) :
    collectParts parts acc = (acc ++ partPairs parts).take 3 := by
  induction parts generalizing acc with
  | nil =>
    simp [collectParts, partPairs, List.take_of_length_le (le_of_lt h)]
  | cons p rest ih =>
    cases p with
    | textPart t =>
      simpa [collectParts, partPairs] using ih acc h
    | reasoningPart t =>
      simpa [collectParts, partPairs] using ih acc h
    | toolPart n i =>
      simp only [collectParts, partPairs]
      by_cases h3 : 3 ≤ (acc ++ [doomPair n i]).length
      · rw [if_pos h3]
        have hl : (acc ++ [doomPair n i]).length = 3 := by
          simp only [List.length_append, List.length_singleton] at h3 ⊢
          omega
        rw [show acc ++ doomPair n i :: partPairs rest
              = (acc ++ [doomPair n i]) ++ partPairs rest by simp]
        rw [List.take_append_eq_append_take, hl,
          List.take_of_length_le (le_of_eq hl)]
        simp
      · rw [if_neg h3]
        rw [ih _ (Nat.lt_of_not_le h3)]
        congr 1
        simp

theorem collectMsgs_take (msgs : List MsgRec) (acc : List (String × ArgMap))
    (h : acc.length < 3) :
    collectMsgs msgs acc =
      (acc ++ (msgs.filter fun m => m.role = "assistant").flatMap
        fun m => partPairs m.parts).take 3 := by
  induction msgs generalizing acc with
  | nil =>
    simp [collectMsgs, List.take_of_length_le (le_of_lt h)]
  | cons m rest ih =>
    by_cases hrole : m.role = "assistant"
    · simp only [collectMsgs, if_pos hrole]
      rw [collectParts_take m.parts acc h]
      by_cases h3 : 3 ≤ ((acc ++ partPairs m.parts).take 3).length
      · rw [if_pos h3]
        have hlen : 3 ≤ (acc ++ partPairs m.parts).length := by
          simp only [List.length_take] at h3
          omega
        rw [List.filter_cons_of_pos (by simpa using hrole), List.flatMap_cons,
          ← List.append_assoc, List.take_append_of_le_length hlen]
      · rw [if_neg h3]
        have h5 : (acc ++ partPairs m.parts).length < 3 := by
          have h4 := Nat.lt_of_not_le h3
          simp only [List.length_take] at h4
          omega
        rw [List.take_of_length_le (le_of_lt h5), ih _ h5,
          List.filter_cons_of_pos (by simpa using hrole), List.flatMap_cons,
          List.append_assoc]
    · simp only [collectMsgs, if_neg hrole]
      rw [ih _ h, List.filter_cons_of_neg (by simpa using hrole)]

theorem doomDecision_three (recent : List (String × ArgMap)) (h : recent.length ≤ 3) :
    doomDecision recent = true ↔ ∃ q, recent = [q, q, q] := by
  rcases recent with _ | ⟨a, _ | ⟨b, _ | ⟨c, _ | ⟨d, t⟩⟩⟩⟩
  · simp [doomDecision]
  · simp [doomDecision]
  · simp [doomDecision]
  · constructor
    · intro h2
      simp [doomDecision] at h2
      exact ⟨a, by simp [h2.1, h2.2]⟩
    · rintro ⟨q, hq⟩
      obtain ⟨rfl, rfl, rfl⟩ : a = q ∧ b = q ∧ c = q := by
        simpa using hq
      simp [doomDecision]
  · exfalso
    simp only [List.length_cons] at h
    omega

theorem canonInput_perm_eq (i1 i2 : ArgMap) (hp : i1.Perm i2)
    (hnd : (i1.map Prod.fst).Nodup) : canonInput i1 = canonInput i2 := by
  have p1 : (canonInput i1).Perm i1 := List.perm_insertionSort _ _
  have p2 : (canonInput i2).Perm i2 := List.perm_insertionSort _ _
  have p12 : (canonInput i1).Perm (canonInput i2) := (p1.trans hp).trans p2.symm
  have s1 : List.Sorted keyRel (canonInput i1) := List.sorted_insertionSort _ _
  have s2 : List.Sorted keyRel (canonInput i2) := List.sorted_insertionSort _ _
  have nd1 : ((canonInput i1).map Prod.fst).Nodup :=
    ((p1.map Prod.fst).symm).nodup hnd
  have nd2 : ((canonInput i2).map Prod.fst).Nodup :=
    ((p12.map Prod.fst)).nodup nd1
  have pw1 : List.Pairwise (fun a b : String × JVal => a.1 ≠ b.1) (canonInput i1) :=
    List.pairwise_map.mp nd1
  have pw2 : List.Pairwise (fun a b : String × JVal => a.1 ≠ b.1) (canonInput i2) :=
    List.pairwise_map.mp nd2
  have st1 : List.Sorted keyStrict (canonInput i1) :=
    (s1.and pw1).imp fun hy => hy
  have st2 : List.Sorted keyStrict (canonInput i2) :=
    (s2.and pw2).imp fun hy => hy
  exact List.eq_of_perm_of_sorted p12 st1 st2

/-- C2 (amended): the detector's window is the first 3 tool-call pairs
found scanning assistant messages newest-to-oldest but each message's
parts oldest-to-newest; detection fires exactly when that window holds 3
identical (tool name, key-sorted arguments) pairs, and the insertion
order of (duplicate-free) argument keys never changes a pair. -/
theorem c2_doom_window_and_canonical :
    (∀ msgs : List MsgRec,
      detectDoomLoop msgs = true ↔
        ∃ q, ((msgs.reverse.filter fun m => m.role = "assistant").flatMap
            fun m => partPairs m.parts).take 3 = [q, q, q]) ∧
    (∀ i1 i2 : ArgMap, i1.Perm i2 → (i1.map Prod.fst).Nodup →
      canonInput i1 = canonInput i2) := by
  constructor
  · intro msgs
    unfold detectDoomLoop
    rw [collectMsgs_take _ _ (by simp), List.nil_append]
    exact doomDecision_three _ (by
      rw [List.length_take]
      exact inf_le_left)
  · exact canonInput_perm_eq

/-- Witness for C2: a fully concrete window instance and a concrete key
permutation. -/
theorem c2_witness :
    detectDoomLoop
        [⟨"assistant", [MessagePart.toolPart "bash" [("command", JVal.jstr "ls")]]⟩,
         ⟨"assistant", [MessagePart.toolPart "bash" [("command", JVal.jstr "ls")]]⟩,
         ⟨"assistant", [MessagePart.toolPart "bash" [("command", JVal.jstr "ls")]]⟩] = true ∧
    canonInput [("a", JVal.jnum 1), ("b", JVal.jnum 2)] =
      canonInput [("b", JVal.jnum 2), ("a", JVal.jnum 1)] := by
  constructor
  · exact (c2_doom_window_and_canonical.1 _).mpr ⟨("bash", canonInput [("command", JVal.jstr "ls")]), by decide⟩
  · exact c2_doom_window_and_canonical.2 _ _ (by decide) (by decide)

/-- C2 counterexample: one assistant message whose tool parts are
[x, b, b, b].  The last 3 tool calls of the session are identical, so the
claimed reverse-chronological window detects a loop; the source scans the
parts of the newest message in forward order, collects [x, b, b] and
reports false. -/
theorem c2_counterexample :
    detectDoomLoop
        [⟨"assistant",
          [MessagePart.toolPart "x" [], MessagePart.toolPart "b" [],
           MessagePart.toolPart "b" [], MessagePart.toolPart "b" []]⟩] = false ∧
    claimDoomLoop
        [⟨"assistant",
          [MessagePart.toolPart "x" [], MessagePart.toolPart "b" [],
           MessagePart.toolPart "b" [], MessagePart.toolPart "b" []]⟩] = true := by
  decide

theorem runAux_tool_calls (b : Nat → StepBehavior) :
    ∀ (fuel step : Nat) (last : Option MsgResult),
      0 < fuel →
      (∀ i, step ≤ i → i < step + fuel →
        (b i).stream = StreamOutcome.finished "tool_calls" ∧
        ((b i).doomDetected = true → (b i).doomCheck = DoomCheckOutcome.allowed)) →
      runAux b step last fuel = some ⟨"tool_calls", none⟩ := by
  intro fuel
  induction fuel with
  | zero => intro step last h _; exact absurd h (lt_irrefl 0)
  | succ f ih =>
    intro step last _ hcont
    obtain ⟨hs, hd⟩ := hcont step (le_refl _) (by omega)
    have tail : runAux b (step + 1) (some ⟨"tool_calls", none⟩) f =
        some ⟨"tool_calls", none⟩ := by
      cases f with
      | zero => rfl
      | succ f2 =>
        exact ih (step + 1) _ (Nat.succ_pos _) fun i h1 h2 => hcont i (by omega) (by omega)
    by_cases hdd : (b step).doomDetected = true
    · simp [runAux, hs, hdd, hd hdd, tail]
    · simp [runAux, hs, hdd, tail]

/-- C4 (amended): when every step up to the configured maximum requests
tool calls (with any doom-loop escalation approved), the loop exits at the
step budget and returns the last assistant message, whose finish reason is
still "tool_calls"; no "max-steps-reached" reason is ever recorded. -/
theorem c4_max_steps (b : Nat → StepBehavior) (maxSteps : Nat)
    (hpos : 0 < maxSteps)
    (hcont : ∀ i, i < maxSteps →
      (b i).stream = StreamOutcome.finished "tool_calls" ∧
      ((b i).doomDetected = true → (b i).doomCheck = DoomCheckOutcome.allowed)) :
    runLoop b maxSteps = some ⟨"tool_calls", none⟩ ∧
    ∀ r : MsgResult, runLoop b maxSteps = some r → r.finishReason ≠ "max-steps-reached" := by
  have h1 : runLoop b maxSteps = some ⟨"tool_calls", none⟩ :=
    runAux_tool_calls b maxSteps 0 none hpos fun i _ h2 => hcont i (by omega)
  refine ⟨h1, ?_⟩
  intro r hr
  rw [h1] at hr
  obtain rfl : (⟨"tool_calls", none⟩ : MsgResult) = r := Option.some.inj hr
  decide

/-- Witness for C4: three tool-call steps with an approved doom
escalation; the budget of 3 is exhausted and the result keeps the
"tool_calls" finish reason. -/
theorem c4_witness :
    runLoop (fun _ => ⟨StreamOutcome.finished "tool_calls", true, DoomCheckOutcome.allowed⟩) 3 =
      some ⟨"tool_calls", none⟩ ∧
    ∀ r : MsgResult,
      runLoop (fun _ => ⟨StreamOutcome.finished "tool_calls", true, DoomCheckOutcome.allowed⟩) 3 =
        some r → r.finishReason ≠ "max-steps-reached" :=
  c4_max_steps _ 3 (by decide) fun _ _ => ⟨rfl, fun _ => rfl⟩

/-- C4 counterexample: two steps that both request tool calls exhaust a
max_steps of 2; the returned message's finish reason is "tool_calls" — the
claimed "max-steps-reached" is never produced by the loop. -/
theorem c4_counterexample :
    runLoop (fun _ => ⟨StreamOutcome.finished "tool_calls", false, DoomCheckOutcome.allowed⟩) 2 =
      some ⟨"tool_calls", none⟩ ∧
    ("tool_calls" : String) ≠ "max-steps-reached" := by
  constructor
  · decide
  · decide

theorem executeTools_append_of_none (registry : List String) (pre rest : List CallSpec)
    (h : (executeTools registry pre).2 = none) :
    executeTools registry (pre ++ rest) =
      ((executeTools registry pre).1 ++ (executeTools registry rest).1,
        (executeTools registry rest).2) := by
  induction pre with
  | nil => simp [executeTools]
  | cons c t ih =>
    by_cases hc : c.name ∈ registry
    · cases hexec : c.exec with
      | permDenied m => simp [executeTools, hc, hexec] at h
      | permRejected m => simp [executeTools, hc, hexec] at h
      | failed m =>
        have h2 : (executeTools registry t).2 = none := by
          simpa [executeTools, hc, hexec] using h
        simp [executeTools, hc, hexec, ih h2]
      | succeeded out =>
        have h2 : (executeTools registry t).2 = none := by
          simpa [executeTools, hc, hexec] using h
        simp [executeTools, hc, hexec, ih h2]
    · have h2 : (executeTools registry t).2 = none := by
        simpa [executeTools, hc] using h
      simp [executeTools, hc, ih h2]

/-- C6: a permission rejection during tool execution records the failing
call, skips every remaining call of the step, propagates as
`PermissionRejectedError`, and ends the turn with finish reason "stopped"
(with no error recorded) — while a policy denial ends the turn with
"error" and the message recorded, a distinct terminal outcome. -/
theorem c6_permission_failures
    (registry : List String) (pre post : List CallSpec) (c : CallSpec) (m : String)
    (hpre : (executeTools registry pre).2 = none)
    (hc : registry.contains c.name = true)
    (hexec : c.exec = ExecOutcome.permRejected m) :
    executeTools registry (pre ++ c :: post) =
      ((executeTools registry pre).1 ++ [⟨c.id, ToolState.error, none, some m⟩],
        some (PermExn.rejected m)) ∧
    outcomeOfExec (executeTools registry (pre ++ c :: post)).2 "stop" =
      StreamOutcome.permissionRejected m ∧
    (∀ (b : Nat → StepBehavior) (maxSteps : Nat),
      (b 0).stream = StreamOutcome.permissionRejected m → 0 < maxSteps →
      runLoop b maxSteps = some ⟨"stopped", none⟩) ∧
    (∀ (b : Nat → StepBehavior) (maxSteps : Nat),
      (b 0).stream = StreamOutcome.permissionDenied m → 0 < maxSteps →
      runLoop b maxSteps = some ⟨"error", some m⟩) ∧
    ("stopped" : String) ≠ "error" := by
  have hstep : executeTools registry (pre ++ c :: post) =
      ((executeTools registry pre).1 ++ [⟨c.id, ToolState.error, none, some m⟩],
        some (PermExn.rejected m)) := by
    have hc2 : c.name ∈ registry := by simpa using hc
    rw [executeTools_append_of_none registry pre (c :: post) hpre]
    simp [executeTools, hc2, hexec]
  refine ⟨hstep, by rw [hstep]; rfl, ?_, ?_, by decide⟩
  · intro b maxSteps hs hpos
    cases maxSteps with
    | zero => exact absurd hpos (lt_irrefl 0)
    | succ n => simp [runLoop, runAux, hs]
  · intro b maxSteps hs hpos
    cases maxSteps with
    | zero => exact absurd hpos (lt_irrefl 0)
    | succ n => simp [runLoop, runAux, hs]

/-- Witness for C6: with one clean call before it, a rejected call stops
execution; the third scheduled call is never recorded. -/
theorem c6_witness :
    executeTools ["bash"]
        ([⟨"1", "bash", ExecOutcome.succeeded "ok"⟩] ++
          ⟨"2", "bash", ExecOutcome.permRejected "no"⟩ ::
            [⟨"3", "bash", ExecOutcome.succeeded "ok"⟩]) =
      ((executeTools ["bash"] [⟨"1", "bash", ExecOutcome.succeeded "ok"⟩]).1 ++
          [⟨"2", ToolState.error, none, some "no"⟩],
        some (PermExn.rejected "no")) :=
  (c6_permission_failures ["bash"] [⟨"1", "bash", ExecOutcome.succeeded "ok"⟩]
    [⟨"3", "bash", ExecOutcome.succeeded "ok"⟩] ⟨"2", "bash", ExecOutcome.permRejected "no"⟩
    "no" (by decide) (by decide) rfl).1

/-- C10: a tool call whose name is not in the registry is recorded as an
error with message "Unknown tool: name", raises nothing, and the
remaining calls of the step are still executed; a step of only unknown
tools raises no exception at all. -/
theorem c10_unknown_tool
    (registry : List String) (c : CallSpec) (rest : List CallSpec)
    (hc : registry.contains c.name = false) :
    executeTools registry (c :: rest) =
      (⟨c.id, ToolState.error, none, some ("Unknown tool: " ++ c.name)⟩ ::
          (executeTools registry rest).1,
        (executeTools registry rest).2) ∧
    ∀ calls : List CallSpec, (∀ x ∈ calls, registry.contains x.name = false) →
      (executeTools registry calls).2 = none := by
  have hc2 : c.name ∉ registry := by simpa using hc
  constructor
  · simp [executeTools, hc2]
  · intro calls
    induction calls with
    | nil => intro _; rfl
    | cons a t ih =>
      intro hall
      have ha : a.name ∉ registry := by simpa using hall a (List.mem_cons_self a t)
      simp only [executeTools]
      rw [if_neg (by simpa using ha)]
      exact ih fun x hx => hall x (List.mem_cons_of_mem a hx)

/-- Witness for C10: an unregistered tool errors in place while the
following registered call still runs. -/
theorem c10_witness :
    executeTools ["bash"]
        (⟨"1", "frobnicate", ExecOutcome.succeeded ""⟩ ::
          [⟨"2", "bash", ExecOutcome.succeeded "ok"⟩]) =
      (⟨"1", ToolState.error, none, some ("Unknown tool: " ++ "frobnicate")⟩ ::
          (executeTools ["bash"] [⟨"2", "bash", ExecOutcome.succeeded "ok"⟩]).1,
        (executeTools ["bash"] [⟨"2", "bash", ExecOutcome.succeeded "ok"⟩]).2) :=
  (c10_unknown_tool ["bash"] ⟨"1", "frobnicate", ExecOutcome.succeeded ""⟩
    [⟨"2", "bash", ExecOutcome.succeeded "ok"⟩] (by decide)).1

/-- C3 (amended): for a retryable failure at attempt n with retries
remaining and no rate-limit signal, the realized backoff delay is exactly
retry_delay * 2^n — the configuration has no maximum-delay cap — and a
rate-limit signal (the text contains "rate" lowercased or "429") floors
the delay at 10 seconds regardless of n; the provider's first realized
sleep is exactly this delay. -/
theorem c3_retry_delay :
    (∀ (cfg : LLMConfig) (n : Nat) (err : String),
      isRetryableError err = true → isRateLimited err = false →
      retryDelay cfg n err = cfg.retry_delay * 2 ^ n) ∧
    (∀ (cfg : LLMConfig) (n : Nat) (err : String),
      isRateLimited err = true →
      10 ≤ retryDelay cfg n err ∧
        retryDelay cfg n err = max (cfg.retry_delay * 2 ^ n) 10) ∧
    (∀ (cfg : LLMConfig) (results : Nat → AttemptResult) (err : String),
      results 0 = AttemptResult.excn err → isRetryableError err = true →
      0 < cfg.max_retries →
      (streamRun cfg results).2.head? = some (retryDelay cfg 0 err)) := by
  refine ⟨?_, ?_, ?_⟩
  · intro cfg n err _ hrate
    simp [retryDelay, hrate]
  · intro cfg n err hrate
    refine ⟨?_, by simp [retryDelay, hrate]⟩
    simp only [retryDelay, hrate, if_true]
    exact le_max_right _ _
  · intro cfg results err hres hretry hpos
    have hcond : (isRetryableError err && decide (0 < cfg.max_retries)) = true := by
      simp [hretry, hpos]
    simp only [streamRun, streamGo, hres, hcond, if_true]
    rfl

/-- Witness for C3: the default configuration, attempt 2, a plain
connection error (delay 4s) and a rate-limited error (delay floored
to 10s), plus the realized first sleep of a failing call. -/
theorem c3_witness :
    retryDelay DEFAULT_LLM_CONFIG 2 "connection reset by peer" =
      DEFAULT_LLM_CONFIG.retry_delay * 2 ^ 2 ∧
    10 ≤ retryDelay DEFAULT_LLM_CONFIG 0 "rate limit exceeded" ∧
    (streamRun DEFAULT_LLM_CONFIG fun _ => AttemptResult.excn "connection reset by peer").2.head? =
      some (retryDelay DEFAULT_LLM_CONFIG 0 "connection reset by peer") :=
  ⟨c3_retry_delay.1 DEFAULT_LLM_CONFIG 2 "connection reset by peer" (by decide) (by decide),
   (c3_retry_delay.2.1 DEFAULT_LLM_CONFIG 0 "rate limit exceeded" (by decide)).1,
   c3_retry_delay.2.2 DEFAULT_LLM_CONFIG _ "connection reset by peer" rfl (by decide) (by decide)⟩

/-- C3 counterexample: the claimed formula min(initial_delay * base^n,
max_delay) is satisfied by no maximum-delay constant: the realized delays
grow without bound across configurations (LLMConfig has fields timeout,
connect_timeout, max_retries and retry_delay only — no max_delay). -/
theorem c3_counterexample :
    ¬ ∃ M : ℚ, ∀ (cfg : LLMConfig) (n : Nat) (err : String),
        isRetryableError err = true → isRateLimited err = false →
        n < cfg.max_retries →
        retryDelay cfg n err = min (cfg.retry_delay * 2 ^ n) M := by
  rintro ⟨M, hM⟩
  have h := hM ⟨120, 30, 1, M + 1⟩ 0 "connection reset by peer"
    (by decide) (by decide) Nat.one_pos
  have hrl : isRateLimited "connection reset by peer" = false := by decide
  simp only [retryDelay, hrl, Bool.false_eq_true, if_false, pow_zero, mul_one] at h
  rw [inf_eq_right.mpr (by linarith)] at h
  linarith

theorem procEvents_idle_shape :
    ∀ (evts : List UpEvent) (cs : List ProvChunk),
      procEvents evts = (cs, EventsOutcome.idleTimeout) →
      (∀ r, ProvChunk.finish r ∉ cs) ∧ (∀ a d, ProvChunk.retryNotice a d ∉ cs) := by
  intro evts
  induction evts with
  | nil =>
    intro cs h
    exact absurd (congrArg Prod.snd h) (by simp [procEvents])
  | cons e rest ih =>
    intro cs h
    by_cases hgap : e.gap > 60
    · simp only [procEvents, if_pos hgap] at h
      obtain ⟨rfl, -⟩ : ([ProvChunk.errorChunk "流式响应超时 - 60秒未收到数据"] = cs) ∧ True :=
        ⟨congrArg Prod.fst h, trivial⟩
      constructor
      · intro r hr
        simp at hr
      · intro a d hr
        simp at hr
    · simp only [procEvents, if_neg hgap] at h
      cases hfin : e.finishReason with
      | some r =>
        rw [hfin] at h
        exact absurd (congrArg Prod.snd h) (by simp)
      | none =>
        rw [hfin] at h
        have h1 : (procEvents rest).2 = EventsOutcome.idleTimeout := congrArg Prod.snd h
        have h2 := ih (procEvents rest).1 (by rw [← h1])
        have hcs : (match e.content with
            | some s => [ProvChunk.text s]
            | none => []) ++ (procEvents rest).1 = cs := congrArg Prod.fst h
        constructor
        · intro r hr
          rw [← hcs] at hr
          rcases List.mem_append.mp hr with hr1 | hr2
          · cases hec : e.content with
            | some s => rw [hec] at hr1; simp at hr1
            | none => rw [hec] at hr1; simp at hr1
          · exact h2.1 r hr2
        · intro a d hr
          rw [← hcs] at hr
          rcases List.mem_append.mp hr with hr1 | hr2
          · cases hec : e.content with
            | some s => rw [hec] at hr1; simp at hr1
            | none => rw [hec] at hr1; simp at hr1
          · exact h2.2 a d hr2

/-- C9 (amended): when an upstream chunk arrives after a silence of more
than 60 seconds, the provider emits the idle-timeout error chunk and
terminates the stream at once: no retry sleep is realized, no later
attempt runs, and no finish chunk (and no retry notice) follows. -/
theorem c9_idle_timeout_no_retry
    (cfg : LLMConfig) (results : Nat → AttemptResult) (evts : List UpEvent)
    (cs : List ProvChunk)
    (hres : results 0 = AttemptResult.ok evts)
    (hidle : procEvents evts = (cs, EventsOutcome.idleTimeout)) :
    streamRun cfg results = (cs, []) ∧
    (∀ r, ProvChunk.finish r ∉ cs) ∧
    (∀ a d, ProvChunk.retryNotice a d ∉ cs) := by
  have hshape := procEvents_idle_shape evts cs hidle
  refine ⟨?_, hshape.1, hshape.2⟩
  simp only [streamRun, streamGo, hres, hidle]

/-- Witness for C9: a single upstream event arriving after 61 seconds
kills the stream with only the idle-timeout error chunk emitted. -/
theorem c9_witness :
    streamRun DEFAULT_LLM_CONFIG (fun _ => AttemptResult.ok [⟨61, none, none⟩]) =
      ([ProvChunk.errorChunk "流式响应超时 - 60秒未收到数据"], []) ∧
    (∀ r, ProvChunk.finish r ∉ [ProvChunk.errorChunk "流式响应超时 - 60秒未收到数据"]) ∧
    (∀ a d, ProvChunk.retryNotice a d ∉ [ProvChunk.errorChunk "流式响应超时 - 60秒未收到数据"]) :=
  c9_idle_timeout_no_retry DEFAULT_LLM_CONFIG _ [⟨61, none, none⟩]
    [ProvChunk.errorChunk "流式响应超时 - 60秒未收到数据"] rfl (by decide)

/-- C9 counterexample: the first attempt dies of an idle timeout while the
second attempt would stream "hi" and finish; with 3 retries budgeted, the
provider nevertheless returns after the idle timeout — the output holds
only the idle-timeout error chunk, no sleep is realized and the second
attempt's chunks never appear, contradicting "retried like any other
transient failure". -/
theorem c9_counterexample :
    streamRun DEFAULT_LLM_CONFIG
        (fun i => if i = 0 then AttemptResult.ok [⟨61, none, none⟩]
          else AttemptResult.ok [⟨0, some "hi", some "stop"⟩]) =
      ([ProvChunk.errorChunk "流式响应超时 - 60秒未收到数据"], []) ∧
    ProvChunk.text "hi" ∉ [ProvChunk.errorChunk "流式响应超时 - 60秒未收到数据"] ∧
    ProvChunk.finish "stop" ∉ [ProvChunk.errorChunk "流式响应超时 - 60秒未收到数据"] := by
  refine ⟨by decide, by decide, by decide⟩

theorem assembleStep_keeps (parse : String → Option ArgMap) (acc : StreamAcc)
    (e : String × String × Option String) (hmem : e ∈ acc.calls) :
    (⟨e.1, e.2.1, finalizeInput parse e.2.2⟩ : FinalCall) ∈
      (assembleStep parse acc).finalCalls ∧
    (⟨e.1, e.2.1, finalizeInput parse e.2.2⟩ : FinalCall) ∈
      (assembleStep parse acc).executedCalls ∧
    (assembleStep parse acc).finalCalls.length = acc.calls.length := by
  have hne : acc.calls.isEmpty = false := by
    cases hcalls : acc.calls with
    | nil => rw [hcalls] at hmem; exact absurd hmem (List.not_mem_nil _)
    | cons a t => rfl
  have hms : (⟨e.1, e.2.1, finalizeInput parse e.2.2⟩ : FinalCall) ∈
      finalizeCalls parse acc :=
    List.mem_map_of_mem
      (fun x : String × String × Option String =>
        (⟨x.1, x.2.1, finalizeInput parse x.2.2⟩ : FinalCall)) hmem
  refine ⟨?_, ?_, ?_⟩ <;> simp [assembleStep, hne, finalizeCalls] at hms ⊢ <;>
    first
      | exact hms
      | rfl

/-- C7: at stream finish every registered tool call is kept: its
accumulated argument string is parsed to form the input, a parse failure
degrades to the raw-string record instead, and either way the call is
among the calls handed to tool execution — the step proceeds with as many
assembled calls as were registered. -/
theorem c7_parse_fallback :
    (∀ (parse : String → Option ArgMap) (acc : StreamAcc) (id name s : String)
        (v : ArgMap),
      (id, name, some s) ∈ acc.calls → parse s = some v →
      (⟨id, name, v⟩ : FinalCall) ∈ (assembleStep parse acc).finalCalls) ∧
    (∀ (parse : String → Option ArgMap) (acc : StreamAcc) (id name s : String),
      (id, name, some s) ∈ acc.calls → parse s = none →
      (⟨id, name, [("raw", JVal.jstr s)]⟩ : FinalCall) ∈
          (assembleStep parse acc).finalCalls ∧
        (⟨id, name, [("raw", JVal.jstr s)]⟩ : FinalCall) ∈
          (assembleStep parse acc).executedCalls ∧
        (assembleStep parse acc).finalCalls.length = acc.calls.length) := by
  constructor
  · intro parse acc id name s v hmem hparse
    have h := (assembleStep_keeps parse acc (id, name, some s) hmem).1
    simpa [finalizeInput, hparse] using h
  · intro parse acc id name s hmem hparse
    have h := assembleStep_keeps parse acc (id, name, some s) hmem
    simpa [finalizeInput, hparse] using h

/-- Witness for C7: a call whose accumulated string no parser accepts is
kept with the raw-record input and scheduled for execution. -/
theorem c7_witness :
    (⟨"1", "bash", [("raw", JVal.jstr "not json")]⟩ : FinalCall) ∈
        (assembleStep (fun _ => none) ⟨"", [("1", "bash", some "not json")], "stop"⟩).finalCalls ∧
      (⟨"1", "bash", [("raw", JVal.jstr "not json")]⟩ : FinalCall) ∈
        (assembleStep (fun _ => none) ⟨"", [("1", "bash", some "not json")], "stop"⟩).executedCalls ∧
      (assembleStep (fun _ => none)
          ⟨"", [("1", "bash", some "not json")], "stop"⟩).finalCalls.length =
        ([("1", "bash", some "not json")] : List (String × String × Option String)).length :=
  c7_parse_fallback.2 (fun _ => none) ⟨"", [("1", "bash", some "not json")], "stop"⟩
    "1" "bash" "not json" (List.mem_cons_self _ _) rfl

theorem find?_map_keys (k : String)
    (f : (String × String × Option String) → String × String × Option String)
    (hk : ∀ e, (f e).1 = e.1) :
    ∀ l : List (String × String × Option String),
      ((l.map f).find? fun e => e.1 = k) = (l.find? fun e => e.1 = k).map f := by
  intro l
  induction l with
  | nil => rfl
  | cons a t ih =>
    by_cases ha : a.1 = k
    · rw [List.map_cons, List.find?_cons_of_pos _ (by simp [hk, ha]),
        List.find?_cons_of_pos _ (by simp [ha])]
      rfl
    · rw [List.map_cons, List.find?_cons_of_neg _ (by simp [hk, ha]),
        List.find?_cons_of_neg _ (by simp [ha]), ih]

theorem fold_lookup (k : String) :
    ∀ (cs : List LoopChunk) (acc : StreamAcc),
      reRegisters k cs = false →
      ((cs.foldl stepChunk acc).calls.find? fun e => e.1 = k) =
        (fragsTo k cs).foldl (fun cur f => cur.map fun e => applyFrag e f)
          (acc.calls.find? fun e => e.1 = k) := by
  intro cs
  induction cs with
  | nil => intro acc _; rfl
  | cons c rest ih =>
    intro acc hreg
    cases c with
    | text s =>
      simpa [fragsTo, List.foldl_cons, stepChunk] using
        ih { acc with currentText := acc.currentText ++ s } (by simpa [reRegisters] using hreg)
    | errorChunk m =>
      simpa [fragsTo, List.foldl_cons, stepChunk] using
        ih acc (by simpa [reRegisters] using hreg)
    | finish r =>
      simpa [fragsTo, List.foldl_cons, stepChunk] using
        ih { acc with finishReason := r } (by simpa [reRegisters] using hreg)
    | toolCall i n2 =>
      have hik : ¬ i = k := by
        simp [reRegisters] at hreg
        exact hreg.1
      have hreg2 : reRegisters k rest = false := by
        simp [reRegisters] at hreg
        exact hreg.2
      rw [List.foldl_cons, ih _ hreg2, show fragsTo k (LoopChunk.toolCall i n2 :: rest) =
        fragsTo k rest from rfl]
      congr 1
      show ((stepChunk acc (LoopChunk.toolCall i n2)).calls.find? fun e => e.1 = k) =
        (acc.calls.find? fun e => e.1 = k)
      by_cases hany : acc.calls.any fun e => e.1 = i
      · simp only [stepChunk, hany, if_true]
        rw [find?_map_keys k _ (by
          intro e
          by_cases he : e.1 = i <;> simp [he])]
        cases hf : acc.calls.find? fun e => e.1 = k with
        | none => rfl
        | some e2 =>
          have he2 : e2.1 = k := by simpa using List.find?_some hf
          simp [he2, show ¬ k = i from fun h => hik h.symm]
      · simp only [stepChunk, hany, Bool.false_eq_true, if_false]
        rw [List.find?_append]
        have : (([(i, n2, none)] : List (String × String × Option String)).find?
            fun e => e.1 = k) = none := by
          simp [List.find?, hik]
        rw [this, Option.or_none]
    | toolCallDelta i d =>
      have hreg2 : reRegisters k rest = false := by simpa [reRegisters] using hreg
      rw [List.foldl_cons, ih _ hreg2]
      by_cases hik : i = k
      · subst hik
        rw [show fragsTo i (LoopChunk.toolCallDelta i d :: rest) =
          d.getD "" :: fragsTo i rest by simp [fragsTo], List.foldl_cons]
        congr 1
        show ((stepChunk acc (LoopChunk.toolCallDelta i d)).calls.find? fun e => e.1 = i) =
          (acc.calls.find? fun e => e.1 = i).map fun e => applyFrag e (d.getD "")
        simp only [stepChunk]
        rw [find?_map_keys i _ (by
          intro e
          by_cases he : e.1 = i <;> simp [he])]
        cases hf : acc.calls.find? fun e => e.1 = i with
        | none => rfl
        | some e2 =>
          have he2 : e2.1 = i := by simpa using List.find?_some hf
          simp [applyFrag, he2]
      · rw [show fragsTo k (LoopChunk.toolCallDelta i d :: rest) =
          fragsTo k rest by simp [fragsTo, hik]]
        congr 1
        show ((stepChunk acc (LoopChunk.toolCallDelta i d)).calls.find? fun e => e.1 = k) =
          (acc.calls.find? fun e => e.1 = k)
        simp only [stepChunk]
        rw [find?_map_keys k _ (by
          intro e
          by_cases he : e.1 = i <;> simp [he])]
        cases hf : acc.calls.find? fun e => e.1 = k with
        | none => rfl
        | some e2 =>
          have he2 : e2.1 = k := by simpa using List.find?_some hf
          simp [he2, show ¬ k = i from fun h => hik h.symm]

theorem fold_applyFrag (id name : String) :
    ∀ (frags : List String) (a : Option String), frags ≠ [] →
      frags.foldl (fun cur f => cur.map fun e => applyFrag e f) (some (id, name, a)) =
        some (id, name, some (a.getD "" ++ concatFrags frags)) := by
  intro frags
  induction frags with
  | nil => intro a h; exact absurd rfl h
  | cons f rest ih =>
    intro a _
    rw [List.foldl_cons]
    have hstep : (some (id, name, a)).map (fun e => applyFrag e f) =
        some (id, name, some (a.getD "" ++ f)) := rfl
    rw [hstep]
    cases rest with
    | nil =>
      show some (id, name, some (a.getD "" ++ f)) =
        some (id, name, some (a.getD "" ++ concatFrags [f]))
      rw [show concatFrags [f] = "" ++ f from rfl, String.empty_append]
    | cons f2 rest2 =>
      rw [ih (some (a.getD "" ++ f)) (by simp)]
      have hc : concatFrags (f :: f2 :: rest2) = f ++ concatFrags (f2 :: rest2) := by
        show ((f2 :: rest2).foldl (fun a b => a ++ b) ("" ++ f)) = _
        rw [String.empty_append]
        have hoist : ∀ (l : List String) (s : String),
            l.foldl (fun a b => a ++ b) s = s ++ concatFrags l := by
          intro l
          induction l with
          | nil => intro s; simp [concatFrags]
          | cons x xs ihl =>
            intro s
            rw [List.foldl_cons, ihl (s ++ x),
              show concatFrags (x :: xs) = xs.foldl (fun a b => a ++ b) ("" ++ x) from rfl,
              String.empty_append, ihl x, String.append_assoc]
        exact hoist _ _
      rw [hc]
      simp [String.append_assoc]

/-- C8: incremental accumulation is equivalent to one-shot parsing: for a
call registered by a tool_call chunk and never re-registered, the
accumulated argument string after any further chunks equals the
concatenation of the delta fragments addressed to it, so when that
concatenation parses, the assembled input is exactly the parsed value. -/
theorem c8_incremental_assembly
    (parse : String → Option ArgMap) (id name : String) (cs : List LoopChunk)
    (v : ArgMap)
    (hreg : reRegisters id cs = false)
    (hne : fragsTo id cs ≠ [])
    (hparse : parse (concatFrags (fragsTo id cs)) = some v) :
    ((processChunks (LoopChunk.toolCall id name :: cs)).calls.find? fun e => e.1 = id) =
      some (id, name, some (concatFrags (fragsTo id cs))) ∧
    (⟨id, name, v⟩ : FinalCall) ∈
      (assembleStep parse (processChunks (LoopChunk.toolCall id name :: cs))).finalCalls := by
  have hinit : (stepChunk initAcc (LoopChunk.toolCall id name)).calls = [(id, name, none)] := by
    simp [stepChunk, initAcc]
  have hfind0 : ((stepChunk initAcc (LoopChunk.toolCall id name)).calls.find?
      fun e => e.1 = id) = some (id, name, none) := by
    rw [hinit]
    simp [List.find?]
  have hfold : ((processChunks (LoopChunk.toolCall id name :: cs)).calls.find?
      fun e => e.1 = id) = some (id, name, some (concatFrags (fragsTo id cs))) := by
    show ((cs.foldl stepChunk (stepChunk initAcc (LoopChunk.toolCall id name))).calls.find?
      fun e => e.1 = id) = _
    rw [fold_lookup id cs _ hreg, hfind0, fold_applyFrag id name _ _ hne]
    rfl
  refine ⟨hfold, ?_⟩
  have hmem : (id, name, some (concatFrags (fragsTo id cs))) ∈
      (processChunks (LoopChunk.toolCall id name :: cs)).calls :=
    List.mem_of_find?_eq_some hfold
  have h := (assembleStep_keeps parse _ _ hmem).1
  simpa [finalizeInput, hparse] using h

/-- Witness for C8: two fragments "a" and "b" accumulate to "ab", which a
parser maps to a concrete record; the assembled call carries exactly that
record. -/
theorem c8_witness :
    ((processChunks (LoopChunk.toolCall "1" "bash" ::
        [LoopChunk.toolCallDelta "1" (some "a"), LoopChunk.text "hi",
         LoopChunk.toolCallDelta "1" (some "b")])).calls.find? fun e => e.1 = "1") =
      some ("1", "bash", some (concatFrags (fragsTo "1"
        [LoopChunk.toolCallDelta "1" (some "a"), LoopChunk.text "hi",
         LoopChunk.toolCallDelta "1" (some "b")]))) ∧
    (⟨"1", "bash", [("k", JVal.jnull)]⟩ : FinalCall) ∈
      (assembleStep (fun s => if s = "ab" then some [("k", JVal.jnull)] else none)
        (processChunks (LoopChunk.toolCall "1" "bash" ::
          [LoopChunk.toolCallDelta "1" (some "a"), LoopChunk.text "hi",
           LoopChunk.toolCallDelta "1" (some "b")]))).finalCalls :=
  c8_incremental_assembly (fun s => if s = "ab" then some [("k", JVal.jnull)] else none)
    "1" "bash"
    [LoopChunk.toolCallDelta "1" (some "a"), LoopChunk.text "hi",
     LoopChunk.toolCallDelta "1" (some "b")]
    [("k", JVal.jnull)] rfl (by decide) (by decide)

example : fnmatchStr "bash" "bash" = true := by decide
example : fnmatchStr "[a]" "[a]" = false := by decide
example : fnmatchStr "a" "[a]" = true := by decide
example : fnmatchStr "rm -rf /" "rm *" = true := by decide
example : fnmatchStr "b" "[!a]" = true := by decide
example : fnmatchStr "a" "[!a]" = false := by decide
example : fnmatchStr "c" "[a-z]" = true := by decide
example : fnmatchStr "C" "[a-z]" = false := by decide
example : fnmatchStr "x.env" "*.env" = true := by decide
example : fnmatchStr "ab" "a?" = true := by decide
example : fnmatchStr "[" "[" = true := by decide

end Mico
